import Mathlib

/-!
Shallow embedding of the felisp interpreter (src/ast.rs, src/env.rs,
src/main.rs): s-expression parser, expression rendering, the value model,
chained environments, and the recursive evaluator.

Modelling conventions:
* Rust `char` is Lean `Char`; `String` is Lean `String`.
* Rust `i64` values are modelled as `Int`; integer-literal parsing checks the
  i64 range exactly as `str::parse::<i64>` does.
* Fallible Rust code returning `Result<_, String>` is modelled with `Res`,
  which also has a `panic` outcome (for Rust panics such as out-of-bounds
  indexing and `usize` subtraction overflow) and a `timeout` outcome (an
  artifact of fuel-based recursion; the Rust recursion has no fuel).
* The mutable reference-counted environment chain (`Rc<Env>`, `RefCell`)
  is modelled as a store (list) of frames addressed by index; `outer` links
  are indices.  Allocation appends to the store.
* Rust closures (`Callback`) are defunctionalised: the only callbacks the
  program ever creates are the four primitives of `Env::default` and the
  closures built by `eval_fn`, so `Function` carries either a primitive tag
  or a `(captured env, parameter list, body)` triple.
-/

/-- Rust `char::is_ascii_graphic`: `'!'..='~'`. -/
def isAsciiGraphic (c : Char) : Bool := 33 ≤ c.toNat && c.toNat ≤ 126

/-- Code points with the Unicode `White_Space` property, the set accepted by
Rust `char::is_whitespace`. -/
def wsCodes : List Nat :=
  [9, 10, 11, 12, 13, 32, 133, 160, 5760,
   8192, 8193, 8194, 8195, 8196, 8197, 8198, 8199, 8200, 8201, 8202,
   8232, 8233, 8239, 8287, 12288]

/-- Rust `char::is_whitespace`. -/
def isRustWhitespace (c : Char) : Bool := wsCodes.contains c.toNat

/-- The character condition of `parse_atom`'s loop:
`c != ')' && c.is_ascii_graphic()`. -/
def isAtomChar (c : Char) : Bool := c != ')' && isAsciiGraphic c

-- `Expr` from src/ast.rs: `Atom(String)` or `List(Vec<Expr>)`.
-- The element vector is the mutually inductive `ExprList` (Lean 4.14 has no
-- structural recursion over a nested `List Expr`).
mutual
inductive Expr where
  | atom : String → Expr
  | list : ExprList → Expr

inductive ExprList where
  | nil : ExprList
  | cons : Expr → ExprList → ExprList
end

/-- Convert a Lean list of expressions to an `ExprList` (for readable
concrete inputs). -/
def EL : List Expr → ExprList
  | [] => .nil
  | e :: es => .cons e (EL es)

/-- `Vec::len` of an expression list. -/
def ExprList.length : ExprList → Nat
  | .nil => 0
  | .cons _ es => es.length + 1

/-- Outcome of running a piece of Rust code: a value, an `Err(String)`
result, a panic, or fuel exhaustion (embedding artifact only). -/
inductive Res (α : Type) where
  | ok : α → Res α
  | err : String → Res α
  | panic : Res α
  | timeout : Res α
deriving DecidableEq

-- `impl fmt::Display for Expr` (src/ast.rs lines 20-34).  An atom prints
-- verbatim; a list prints `(e1 e2 ... en)`.  For the empty list the code
-- computes `n - 1` on a `usize` with `n = 0` and slices with it, which
-- panics; that is modelled by `none`.  `renderTail` covers the writes after
-- the first element: `" ei"` for each later element, then `")"`.
mutual
def renderExpr : Expr → Option String
  | .atom s => some s
  | .list .nil => none
  | .list (.cons e es) =>
      (renderExpr e).bind fun s => (renderTail es).map fun t => "(" ++ s ++ t

def renderTail : ExprList → Option String
  | .nil => some ")"
  | .cons e es =>
      (renderExpr e).bind fun s => (renderTail es).map fun t => " " ++ s ++ t
end

/-- `parse_atom` (src/ast.rs lines 46-55): take the maximal run of
characters that are ascii-graphic and not `')'`; error if it is empty. -/
def parseAtomF (cs : List Char) : Res (Expr × List Char) :=
  let run := cs.takeWhile isAtomChar
  if run.isEmpty then .err "empty atom"
  else .ok (.atom (String.mk run), cs.dropWhile isAtomChar)

/-- Sequence a `Res` computation, forwarding `err`/`panic`/`timeout`
unchanged (the shape of the `?`-operator plumbing in the parser). -/
def resSeq {α β : Type} (r : Res α) (f : α → Res β) : Res β :=
  match r with
  | .ok a => f a
  | .err m => .err m
  | .panic => .panic
  | .timeout => .timeout

/-- The loop of `parse_list` (src/ast.rs lines 57-67): parse expressions
while the next character exists and is not `')'`.  `f` is the
expression parser; the extra fuel argument is an embedding artifact. -/
def parseItems (f : List Char → Res (Expr × List Char)) :
    Nat → List Char → Res (ExprList × List Char)
  | 0, _ => .timeout
  | _+1, [] => .ok (.nil, [])
  | fuel+1, c :: cs =>
    if c = ')' then .ok (.nil, c :: cs)
    else
      resSeq (f (c :: cs)) fun p =>
        resSeq (parseItems f fuel p.2) fun q => .ok (.cons p.1 q.1, q.2)

/-- The `chars.next_if_eq(&')')` that closes `parse_list`: succeed when the
remaining input starts with `')'`, else `"parse_list expected ')'"`. -/
def closeParen (p : ExprList × List Char) : Res (Expr × List Char) :=
  match p.2 with
  | ')' :: rest2 => .ok (.list p.1, rest2)
  | _ => .err "parse_list expected ')'"

/-- The dispatch of `parse_expression` after the leading whitespace is
gone: a list if the next character is `'('` (with `f` parsing the list
elements), an atom otherwise, then skip whitespace after the expression.
The `'('`-consuming `next_if_eq` of `parse_list` always succeeds (the
branch is guarded on `peek`), so its error is not representable. -/
def parseExprAt (f : List Char → Res (Expr × List Char)) (cs1 : List Char) :
    Res (Expr × List Char) :=
  let out : Res (Expr × List Char) :=
    match cs1 with
    | '(' :: rest0 => resSeq (parseItems f (rest0.length + 1) rest0) closeParen
    | _ => parseAtomF cs1
  resSeq out fun p => .ok (p.1, p.2.dropWhile isRustWhitespace)

/-- `parse_expression` (src/ast.rs lines 36-44): skip whitespace, dispatch
on the next character, skip whitespace again (inside `parseExprAt`). -/
def parseExpression : Nat → List Char → Res (Expr × List Char)
  | 0, _ => .timeout
  | fuel+1, cs => parseExprAt (parseExpression fuel) (cs.dropWhile isRustWhitespace)

/-- `Expr::parse` (src/ast.rs lines 10-17): parse one expression and
require the input to be exhausted, else `"Unexpected EOF"`.  The fuel
`s.length + 1` always suffices (each recursive descent consumes at least
one character of the original input before recursing). -/
def Expr.parse (s : String) : Res Expr :=
  match parseExpression (s.length + 1) s.data with
  | .ok (e, rest) => if rest.isEmpty then .ok e else .err "Unexpected EOF"
  | .err m => .err m
  | .panic => .panic
  | .timeout => .timeout

def i64Max : Int := 2 ^ 63 - 1

def i64Min : Int := -(2 ^ 63)

/-- Whether an integer is representable as a Rust `i64`. -/
def inI64 (x : Int) : Bool := decide (i64Min ≤ x ∧ x ≤ i64Max)

/-- Decimal value of an ascii digit run (none on a non-digit). -/
def digitsVal : List Char → Nat → Option Nat
  | [], acc => some acc
  | c :: cs, acc =>
      if 48 ≤ c.toNat && c.toNat ≤ 57 then digitsVal cs (acc * 10 + (c.toNat - 48))
      else none

/-- A nonempty all-digit run, else none. -/
def natLiteral : List Char → Option Nat
  | [] => none
  | cs => digitsVal cs 0

/-- Rust `str::parse::<i64>`: optional single sign, then a nonempty ascii
digit run, and the value must fit in the i64 range (overflow is an error). -/
def parseI64 (s : String) : Option Int :=
  match s.data with
  | '+' :: ds => (natLiteral ds).bind fun n =>
      if (n : Int) ≤ i64Max then some (n : Int) else none
  | '-' :: ds => (natLiteral ds).bind fun n =>
      if i64Min ≤ -(n : Int) then some (-(n : Int)) else none
  | ds => (natLiteral ds).bind fun n =>
      if (n : Int) ≤ i64Max then some (n : Int) else none

/-- The four native callbacks installed by `Env::default`. -/
inductive Prim where
  | add | sub | mul | leq
deriving DecidableEq

/-- A `Callback` (src/env.rs line 5), defunctionalised: a primitive, or a
closure made by `eval_fn` holding the captured environment index, the
parameter-name expressions, and the body. -/
inductive FnVal where
  | prim : Prim → FnVal
  | closure : Nat → ExprList → Expr → FnVal

/-- `Value` from src/env.rs lines 7-24. -/
inductive Value where
  | Nil | True | False
  | Def | Let | Do | If | Fn | Quote
  | Number : Int → Value
  | Quoted : Expr → Value
  | Function : FnVal → Value

/-- `impl Display for Value` (src/env.rs lines 26-43).  `Quoted` renders its
wrapped expression, so it panics (none) exactly when that rendering does. -/
def renderValue : Value → Option String
  | .Nil => some "nil"
  | .True => some "true"
  | .False => some "false"
  | .Def => some "def!"
  | .Let => some "let*"
  | .If => some "if"
  | .Do => some "do"
  | .Quote => some "quote"
  | .Fn => some "fn*"
  | .Number n => some (toString n)
  | .Quoted e => renderExpr e
  | .Function _ => some "<fun>"

/-- One `Env` (src/env.rs lines 45-48): its own bindings and an optional
outer environment, here a store index. -/
structure Frame where
  data : List (String × Value)
  outer : Option Nat

/-- All environments ever allocated; `Rc<Env>` handles become indices. -/
abbrev Store := List Frame

/-- `HashMap::get`: the binding for a key.  Insertion conses the new pair in
front, so taking the first match realises insert-with-overwrite. -/
def alGet : List (String × Value) → String → Option Value
  | [], _ => none
  | (k, v) :: m, s => if k = s then some v else alGet m s

def storeModify : Store → Nat → (Frame → Frame) → Store
  | [], _, _ => []
  | fr :: σ, 0, g => g fr :: σ
  | fr :: σ, n+1, g => fr :: storeModify σ n g

/-- `Env::set` (src/env.rs lines 89-91): insert/overwrite in the current
environment only. -/
def envSet (σ : Store) (i : Nat) (s : String) (v : Value) : Store :=
  storeModify σ i fun fr => ⟨(s, v) :: fr.data, fr.outer⟩

/-- `Env::get_from_map` (src/env.rs lines 79-87): local bindings first, then
the outer chain, then `unknown symbol`.  The gas argument is an embedding
artifact: outer indices of every store the program builds strictly
decrease, so the `i + 1` gas given by `envGet` never runs out. -/
def getFromMap (σ : Store) (s : String) : Nat → Nat → Res Value
  | _, 0 => .timeout
  | i, g+1 =>
    match σ.get? i with
    | none => .panic
    | some fr =>
      match alGet fr.data s with
      | some v => .ok v
      | none =>
        match fr.outer with
        | some j => getFromMap σ s j g
        | none => .err ("unknown symbol '" ++ s ++ "'")

/-- The literal-keyword table: the first `match` arms of `Env::get`. -/
def keywordVal : String → Option Value
  | "nil" => some .Nil
  | "true" => some .True
  | "false" => some .False
  | "def!" => some .Def
  | "let*" => some .Let
  | "do" => some .Do
  | "if" => some .If
  | "quote" => some .Quote
  | "fn*" => some .Fn
  | _ => none

/-- `Env::get` (src/env.rs lines 57-77): literal keywords, then integer
literals, then the binding chain. -/
def envGet (σ : Store) (i : Nat) (s : String) : Res Value :=
  match keywordVal s with
  | some v => .ok v
  | none =>
    match parseI64 s with
    | some n => .ok (.Number n)
    | none => getFromMap σ s i (i + 1)

/-- `add` (src/env.rs lines 108-118): fold `+=` over the arguments starting
from 0; the first non-Number argument aborts with a type error whose
message renders that value (rendering a Quoted empty list panics). The
fold runs on `i64`, so a step whose sum leaves the i64 range panics
(overflow checks are on in the default build profile). -/
def addVals : Int → List Value → Res Value
  | total, [] => .ok (.Number total)
  | total, .Number n :: rest =>
    match inI64 (total + n) with
    | true => addVals (total + n) rest
    | false => .panic
  | _, v :: _ =>
    match renderValue v with
    | some sv => .err ("invalid type expected Number but got '" ++ sv ++ "'")
    | none => .panic

/-- `mul` (src/env.rs lines 132-142): like `add` with `*=` and identity 1,
again panicking on i64 overflow. -/
def mulVals : Int → List Value → Res Value
  | total, [] => .ok (.Number total)
  | total, .Number n :: rest =>
    match inI64 (total * n) with
    | true => mulVals (total * n) rest
    | false => .panic
  | _, v :: _ =>
    match renderValue v with
    | some sv => .err ("invalid type expected Number but got '" ++ sv ++ "'")
    | none => .panic

/-- `sub` (src/env.rs lines 120-130): `args[0]` and `args[1]` are indexed
unconditionally, so fewer than two arguments panics (in the match or while
formatting the error); with two Numbers in front the result is their i64
difference (a difference outside the i64 range panics — overflow checks)
and any extra arguments are ignored. -/
def subVals : List Value → Res Value
  | [] => .panic
  | [_] => .panic
  | .Number x :: .Number y :: _ =>
    match inI64 (x - y) with
    | true => .ok (.Number (x - y))
    | false => .panic
  | a :: b :: _ =>
    match renderValue a, renderValue b with
    | some sa, some sb =>
        .err ("invalid type expected Numbers but got '" ++ sa ++ ", " ++ sb ++ "'")
    | _, _ => .panic

/-- `leq` (src/env.rs lines 144-154): same shape as `sub`, returning
True/False for `x <= y`. -/
def leqVals : List Value → Res Value
  | [] => .panic
  | [_] => .panic
  | .Number x :: .Number y :: _ => .ok (if x ≤ y then .True else .False)
  | a :: b :: _ =>
    match renderValue a, renderValue b with
    | some sa, some sb =>
        .err ("invalid type expected Numbers but got '" ++ sa ++ ", " ++ sb ++ "'")
    | _, _ => .panic

def primApply : Prim → List Value → Res Value
  | .add, args => addVals 0 args
  | .sub, args => subVals args
  | .mul, args => mulVals 1 args
  | .leq, args => leqVals args

/-- `Env::default` (src/env.rs lines 94-106): the global environment with
the four primitives and no outer link. -/
def defaultStore : Store :=
  [⟨[("+", .Function (.prim .add)), ("-", .Function (.prim .sub)),
     ("*", .Function (.prim .mul)), ("<=", .Function (.prim .leq))], none⟩]

/-- Store after a call together with its outcome.  Rust mutates environments
in place through `RefCell`, so mutations performed before a failure
survive it; the store is therefore returned on every outcome. -/
abbrev EvalOut := Store × Res Value

/-- The type of `eval` partially applied: expression, current environment
index, store. -/
abbrev EvalFn := Expr → Nat → Store → EvalOut

/-- Sequencing that mirrors the `?` operator while keeping the store. -/
def bindS {α β : Type} (p : Store × Res α) (g : α → Store → Store × Res β) :
    Store × Res β :=
  match p with
  | (σ, .ok a) => g a σ
  | (σ, .err m) => (σ, .err m)
  | (σ, .panic) => (σ, .panic)
  | (σ, .timeout) => (σ, .timeout)

/-- `eval_def` (src/main.rs lines 67-76): `(def! name value)` with exactly 2
trailing forms; the name form is rendered to text (panics on an empty
list), the value form is evaluated in the current environment, the binding
is set there, and the value is returned. -/
def evalDef (f : EvalFn) (rest : ExprList) (i : Nat) (σ : Store) : EvalOut :=
  match rest with
  | .cons k (.cons vE .nil) =>
    match renderExpr k with
    | none => (σ, .panic)
    | some key =>
      bindS (f vE i σ) fun v σ₁ => (envSet σ₁ i key v, .ok v)
  | _ => (σ, .err "def! requires 2 arguments")

/-- The `chunks(2)` loop of `eval_let`: render each name, evaluate each
value in the new environment `j`, bind it there, and continue.  The
singleton case cannot arise (the caller checked the length is even). -/
def evalLetPairs (f : EvalFn) : ExprList → Nat → Store → Store × Res Unit
  | .nil, _, σ => (σ, .ok ())
  | .cons _ .nil, _, σ => (σ, .ok ())
  | .cons k (.cons vE kvs), j, σ =>
    match renderExpr k with
    | none => (σ, .panic)
    | some key =>
      bindS (f vE j σ) fun v σ₁ => evalLetPairs f kvs j (envSet σ₁ j key v)

/-- The error branch of `eval_let`'s match: the message renders the
offending bindings form. -/
def letBindingsErr (σ : Store) (b : Expr) : EvalOut :=
  match renderExpr b with
  | some sb => (σ, .err ("let* expected key-value pairs got '" ++ sb ++ "'"))
  | none => (σ, .panic)

/-- `eval_let` (src/main.rs lines 80-96): exactly 2 trailing forms, the
first a List of even length; one new child environment of the current one
is created, the pairs are bound sequentially in it, and the body is
evaluated there. -/
def evalLet (f : EvalFn) (rest : ExprList) (i : Nat) (σ : Store) : EvalOut :=
  match rest with
  | .cons b (.cons body .nil) =>
    match b with
    | .list kvs =>
      if kvs.length % 2 = 0 then
        bindS (evalLetPairs f kvs σ.length (σ ++ [⟨[], some i⟩])) fun _ σ₁ =>
          f body σ.length σ₁
      else letBindingsErr σ b
    | _ => letBindingsErr σ b
  | _ => (σ, .err "let* requires 2 arguments")

/-- `eval_do` (src/main.rs lines 100-106): evaluate all trailing forms in
order in the current environment; return the last result, Nil if none. -/
def evalDo (f : EvalFn) : ExprList → Nat → Store → EvalOut
  | .nil, _, σ => (σ, .ok .Nil)
  | .cons e .nil, i, σ => f e i σ
  | .cons e (.cons e' es), i, σ =>
    bindS (f e i σ) fun _ σ₁ => evalDo f (.cons e' es) i σ₁

/-- `eval_if` (src/main.rs lines 111-121): arity by the length of the whole
form (`exprs.len()` counts the head): fewer than 2 trailing forms is an
error before evaluating anything; the condition is evaluated, Nil/False
selects the else form (Nil when absent), everything else selects the then
form; more than 3 trailing forms errors only after the condition. -/
def evalIf (f : EvalFn) (rest : ExprList) (i : Nat) (σ : Store) : EvalOut :=
  match rest with
  | .nil => (σ, .err "if* requires at least 2 arguments")
  | .cons _ .nil => (σ, .err "if* requires at least 2 arguments")
  | .cons c rs =>
    bindS (f c i σ) fun v σ₁ =>
      match v, rs with
      | .Nil, .cons _ .nil => (σ₁, .ok .Nil)
      | .False, .cons _ .nil => (σ₁, .ok .Nil)
      | .Nil, .cons _ (.cons e .nil) => f e i σ₁
      | .False, .cons _ (.cons e .nil) => f e i σ₁
      | _, .cons t .nil => f t i σ₁
      | _, .cons t (.cons _ .nil) => f t i σ₁
      | _, _ => (σ₁, .err "if* requires at most 3 arguments")

/-- `eval_quote` (src/main.rs lines 134-136): wrap the unevaluated List of
all trailing forms; the environment is unused. -/
def evalQuote (rest : ExprList) (σ : Store) : EvalOut :=
  (σ, .ok (.Quoted (.list rest)))

/-- `eval_fn` (src/main.rs lines 141-169), creation part: exactly 2 trailing
forms, the first a List; clone the current environment handle, the
parameter list, and the body into a closure value. -/
def evalFn (rest : ExprList) (i : Nat) (σ : Store) : EvalOut :=
  match rest with
  | .cons b (.cons body .nil) =>
    match b with
    | .list bindings => (σ, .ok (.Function (.closure i bindings body)))
    | _ =>
      match renderExpr b with
      | some sb => (σ, .err ("fn* expected bindings got '" ++ sb ++ "'"))
      | none => (σ, .panic)
  | _ => (σ, .err "fn* requires 2 arguments")

/-- The argument loop of `eval_function` (src/main.rs lines 124-131):
evaluate every trailing form left to right in the current environment. -/
def evalArgs (f : EvalFn) : ExprList → Nat → Store → Store × Res (List Value)
  | .nil, _, σ => (σ, .ok [])
  | .cons e es, i, σ =>
    bindS (f e i σ) fun v σ₁ =>
      bindS (evalArgs f es i σ₁) fun vs σ₂ => (σ₂, .ok (v :: vs))

/-- The binding loop of the closure in `eval_fn`: `zip` stops at the
shorter sequence (the arity was already checked equal). -/
def bindParams : ExprList → List Value → Nat → Store → Store × Res Unit
  | .nil, _, _, σ => (σ, .ok ())
  | .cons _ _, [], _, σ => (σ, .ok ())
  | .cons b bs, v :: vs, k, σ =>
    match renderExpr b with
    | none => (σ, .panic)
    | some key => bindParams bs vs k (envSet σ k key v)

/-- Apply a callback (the invocation part of `eval_fn`, src/main.rs lines
149-164, or a primitive): a closure call first checks the argument count,
then allocates a fresh child of the captured environment, binds the
parameters there, and evaluates the body in it. -/
def applyFn (f : EvalFn) (fv : FnVal) (args : List Value) (σ : Store) : EvalOut :=
  match fv with
  | .prim p => (σ, primApply p args)
  | .closure j params body =>
    if args.length ≠ params.length then
      (σ, .err ("fn required " ++ toString params.length ++ " args but given "
          ++ toString args.length))
    else
      bindS (bindParams params args σ.length (σ ++ [⟨[], some j⟩])) fun _ σ₁ =>
        f body σ.length σ₁

/-- One layer of `eval` (src/main.rs lines 45-63): an atom is looked up; an
empty list is Nil; otherwise the head is evaluated and dispatched on. -/
def evalCore (f : EvalFn) : Expr → Nat → Store → EvalOut
  | .atom s, i, σ => (σ, envGet σ i s)
  | .list .nil, _, σ => (σ, .ok .Nil)
  | .list (.cons e0 rest), i, σ =>
    bindS (f e0 i σ) fun v σ₁ =>
      match v with
      | .Def => evalDef f rest i σ₁
      | .Let => evalLet f rest i σ₁
      | .Do => evalDo f rest i σ₁
      | .If => evalIf f rest i σ₁
      | .Quote => evalQuote rest σ₁
      | .Fn => evalFn rest i σ₁
      | .Function fv =>
        bindS (evalArgs f rest i σ₁) fun args σ₂ => applyFn f fv args σ₂
      | other =>
        match renderValue other with
        | some sv => (σ₁, .err ("unknown symbol '" ++ sv ++ "'"))
        | none => (σ₁, .panic)

/-- `eval`, fuelled: each nesting level of the Rust recursion consumes one
unit.  Running out of fuel is `timeout`, an embedding artifact (the Rust
code would recurse further, possibly forever). -/
def eval : Nat → EvalFn
  | 0 => fun _ _ σ => (σ, .timeout)
  | fuel+1 => evalCore (eval fuel)

/-- One REPL iteration body (src/main.rs lines 18-27): parse the line and
evaluate it in the given environment. -/
def runLine (fuel : Nat) (σ : Store) (s : String) : EvalOut :=
  match Expr.parse s with
  | .ok e => eval fuel e 0 σ
  | .err m => (σ, .err m)
  | .panic => (σ, .panic)
  | .timeout => (σ, .timeout)

/-- Rendered text of one line evaluated in the default environment (what
the REPL would print for a fresh session). -/
def evalOut (fuel : Nat) (s : String) : Res String :=
  match runLine fuel defaultStore s with
  | (_, .ok v) =>
    match renderValue v with
    | some out => .ok out
    | none => .panic
  | (_, .err m) => .err m
  | (_, .panic) => .panic
  | (_, .timeout) => .timeout

/-- A whole REPL session: successive lines share one environment, which
survives failing lines (src/main.rs keeps `env` across iterations). -/
def runSession (fuel : Nat) : List String → Store → List (Res String)
  | [], _ => []
  | s :: rest, σ =>
    let p := runLine fuel σ s
    let out : Res String :=
      match p.2 with
      | .ok v =>
        match renderValue v with
        | some o => .ok o
        | none => .panic
      | .err m => .err m
      | .panic => .panic
      | .timeout => .timeout
    out :: runSession fuel rest p.1

/-- Parser-producible atom text: nonempty, every character ascii-graphic
and not `')'`, and not starting with `'('` (`parse_expression` dispatches a
leading `'('` to `parse_list`, so no parsed atom starts with one). -/
def goodAtom : List Char → Bool
  | [] => false
  | c :: cs => c != '(' && isAtomChar c && cs.all isAtomChar

-- Well-formed expressions: atoms are parser-producible and no List is
-- empty (the Display impl panics on empty lists).  This is the domain on
-- which the render/parse round trip can hold.
mutual
def wfExpr : Expr → Bool
  | .atom s => goodAtom s.data
  | .list .nil => false
  | .list (.cons e es) => wfExpr e && wfItems es

def wfItems : ExprList → Bool
  | .nil => true
  | .cons e es => wfExpr e && wfItems es
end

-- The expression grammar as the specification words it (spec.md section
-- 4.1): an expression is an atom — a maximal run of printable
-- non-whitespace characters excluding ')' — or a parenthesized,
-- whitespace-separated list of zero or more expressions, with whitespace
-- skipped before and after every expression.  An expression beginning
-- with '(' is a list form, so a conforming atom does not start with '(';
-- maximality is realised by at least one whitespace character between
-- adjacent items.  `SpecBody` generates the text between the parentheses
-- of a list; `SpecTail` generates what follows its first item.
mutual
inductive SpecForm : List Char → Prop where
  | atom : ∀ (c : Char) (cs : List Char), c ≠ '(' → isAtomChar c = true →
      (∀ d ∈ cs, isAtomChar d = true) → SpecForm (c :: cs)
  | list : ∀ inner : List Char, SpecBody inner → SpecForm ('(' :: inner ++ [')'])

inductive SpecBody : List Char → Prop where
  | empty : ∀ ws : List Char, (∀ c ∈ ws, isRustWhitespace c = true) → SpecBody ws
  | items : ∀ ws cs rest : List Char, (∀ c ∈ ws, isRustWhitespace c = true) →
      SpecForm cs → SpecTail rest → SpecBody (ws ++ cs ++ rest)

inductive SpecTail : List Char → Prop where
  | done : ∀ ws : List Char, (∀ c ∈ ws, isRustWhitespace c = true) → SpecTail ws
  | more : ∀ (w : Char) (ws cs rest : List Char), isRustWhitespace w = true →
      (∀ c ∈ ws, isRustWhitespace c = true) → SpecForm cs → SpecTail rest →
      SpecTail (w :: ws ++ cs ++ rest)
end

-- The grammar amended to what the parser actually accepts: identical to
-- SpecForm/SpecBody/SpecTail except that the body of an empty list must
-- contain no whitespace: the `parse_list` loop treats any non-')'
-- character (whitespace included) as the start of an element, so "( )"
-- fails with an empty-atom error.
mutual
inductive SpecFormA : List Char → Prop where
  | atom : ∀ (c : Char) (cs : List Char), c ≠ '(' → isAtomChar c = true →
      (∀ d ∈ cs, isAtomChar d = true) → SpecFormA (c :: cs)
  | list : ∀ inner : List Char, SpecBodyA inner → SpecFormA ('(' :: inner ++ [')'])

inductive SpecBodyA : List Char → Prop where
  | empty : SpecBodyA []
  | items : ∀ ws cs rest : List Char, (∀ c ∈ ws, isRustWhitespace c = true) →
      SpecFormA cs → SpecTailA rest → SpecBodyA (ws ++ cs ++ rest)

inductive SpecTailA : List Char → Prop where
  | done : ∀ ws : List Char, (∀ c ∈ ws, isRustWhitespace c = true) → SpecTailA ws
  | more : ∀ (w : Char) (ws cs rest : List Char), isRustWhitespace w = true →
      (∀ c ∈ ws, isRustWhitespace c = true) → SpecFormA cs → SpecTailA rest →
      SpecTailA (w :: ws ++ cs ++ rest)
end

/-- A continuation that cannot extend an atom: empty, or starting with a
character `parse_atom` would not consume (whitespace or `')'`). -/
def wsDelim (rest : List Char) : Prop :=
  ∀ c, rest.head? = some c → isAtomChar c = false

/-- Round-trip property of one well-formed expression: `parse_expression`
on its rendered text followed by any non-atom-extending continuation
returns exactly that expression and the continuation with leading
whitespace dropped. -/
def PE (e : Expr) : Prop :=
  ∀ (F : Nat) (s : String) (rest : List Char),
    wfExpr e = true → renderExpr e = some s →
    s.data.length + rest.length < F → wsDelim rest →
    parseExpression F (s.data ++ rest) = .ok (e, rest.dropWhile isRustWhitespace)

/-- Round-trip property of a rendered list body: the `parse_list` loop
recovers the elements from the first element's rendering followed by the
tail rendering (which ends in the closing parenthesis). -/
def PI (e : Expr) (es : ExprList) : Prop :=
  ∀ (F g : Nat) (s t : String) (rest : List Char),
    wfExpr e = true → wfItems es = true →
    renderExpr e = some s → renderTail es = some t →
    s.data.length + t.data.length + rest.length < F → es.length + 1 < g →
    parseItems (parseExpression F) g (s.data ++ t.data ++ rest)
      = .ok (.cons e es, ')' :: rest)



theorem addVals_numbers (xs : List Int) :
    ∀ t : Int, (∀ i : Nat, i ≤ xs.length → inI64 (t + (xs.take i).sum) = true) →
      addVals t (xs.map .Number) = .ok (.Number (t + xs.sum)) := by
  induction xs with
  | nil => intro t _; simp [addVals]
  | cons x xs ih =>
    intro t h
    have h1 : inI64 (t + x) = true := by
      have h2 := h 1 (by simp)
      simpa using h2
    have h3 : ∀ i : Nat, i ≤ xs.length → inI64 (t + x + (xs.take i).sum) = true := by
      intro i hi
      have h4 := h (i + 1) (by simpa using hi)
      simpa [List.take_succ_cons, add_assoc] using h4
    simp [addVals, h1, ih (t + x) h3]
    ring_nf

theorem mulVals_numbers (xs : List Int) :
    ∀ t : Int, (∀ i : Nat, i ≤ xs.length → inI64 (t * (xs.take i).prod) = true) →
      mulVals t (xs.map .Number) = .ok (.Number (t * xs.prod)) := by
  induction xs with
  | nil => intro t _; simp [mulVals]
  | cons x xs ih =>
    intro t h
    have h1 : inI64 (t * x) = true := by
      have h2 := h 1 (by simp)
      simpa using h2
    have h3 : ∀ i : Nat, i ≤ xs.length → inI64 (t * x * (xs.take i).prod) = true := by
      intro i hi
      have h4 := h (i + 1) (by simpa using hi)
      simpa [List.take_succ_cons, mul_assoc] using h4
    simp [mulVals, h1, ih (t * x) h3]
    ring_nf

theorem subVals_ok_shape (args : List Value) (v : Value) (h : subVals args = .ok v) :
    ∃ (x y : Int) (rest : List Value), args = .Number x :: .Number y :: rest := by
  rw [subVals.eq_def] at h
  split at h
  · cases h
  · cases h
  · next x y rest =>
    split at h
    · exact ⟨x, y, rest, rfl⟩
    · cases h
  · split at h <;> cases h

theorem leqVals_ok_shape (args : List Value) (v : Value) (h : leqVals args = .ok v) :
    ∃ (x y : Int) (rest : List Value), args = .Number x :: .Number y :: rest := by
  rw [leqVals.eq_def] at h
  split at h
  · cases h
  · cases h
  · next x y rest => exact ⟨x, y, rest, rfl⟩
  · split at h <;> cases h

/-- C4: the claim says rendering is total on Expressions and an empty List
prints as "()"; in the code `Display for Expr` computes `exprs[..n - 1]`
with `n = 0`, a `usize` underflow, so rendering an empty List — e.g. the
Quoted value produced by `(quote)` — panics instead of printing "()". -/
theorem c4_display_empty_list_panics :
    renderExpr (.list .nil) = none ∧
    runLine 50 defaultStore "(quote)" = (defaultStore, .ok (.Quoted (.list .nil))) ∧
    renderValue (.Quoted (.list .nil)) = none ∧
    evalOut 50 "(quote)" = .panic :=
  ⟨rfl, rfl, rfl, rfl⟩

/-- C2 counterexample: `(quote (1 2 3))` renders as "((1 2 3))", not
"(1 2 3)" as the claim states — `eval_quote` wraps the List of all
trailing forms, so the single trailing form `(1 2 3)` is nested once
more. -/
theorem c2_counterexample :
    evalOut 50 "(quote (1 2 3))" = .ok "((1 2 3))" ∧
    evalOut 50 "(quote (1 2 3))" ≠ .ok "(1 2 3)" :=
  ⟨rfl, by decide⟩

/-- C2 amended: `(quote ...)` returns a Quoted value wrapping the
unevaluated List of all trailing forms — for any trailing forms, any
environment and any store, without touching the store or evaluating
anything (the result is the same for contents that could not be
evaluated, e.g. an undefined symbol) — and `(quote (1 2 3))` renders as
"((1 2 3))". -/
theorem c2_quote_wraps_all_trailing_forms :
    (∀ (fuel i : Nat) (σ : Store) (es : ExprList),
      eval (fuel + 2) (.list (.cons (.atom "quote") es)) i σ =
        (σ, .ok (.Quoted (.list es)))) ∧
    evalOut 50 "(quote (1 2 3))" = .ok "((1 2 3))" ∧
    evalOut 50 "(quote (undefined-symbol))" = .ok "((undefined-symbol))" :=
  ⟨fun _ _ _ _ => rfl, rfl, rfl⟩

/-- C3 counterexample: with more than 2 arguments, all Numbers, `-` and
`<=` return a value (using the first two and ignoring the rest) instead
of the error the claim requires; with fewer than 2 arguments they panic
on `args[0]`/`args[1]` instead of returning an error result. -/
theorem c3_counterexample :
    subVals [.Number 1, .Number 2, .Number 3] = .ok (.Number (-1)) ∧
    leqVals [.Number 1, .Number 2, .Number 3] = .ok .True ∧
    evalOut 50 "(- 1 2 3)" = .ok "-1" ∧
    subVals [.Number 5] = .panic ∧
    evalOut 50 "(- 5)" = .panic :=
  ⟨rfl, rfl, rfl, rfl, rfl⟩

/-- C3 amended: `-` and `<=` panic with fewer than 2 arguments; with the
first two arguments Numbers, `-` returns the signed difference of those
two when it fits in an i64 and panics on overflow (e.g. on
`(- -9223372036854775808 1)`), `<=` returns their True/False comparison,
both ignoring any extras; and they return a value only when the first two
arguments are both Numbers. -/
theorem c3_sub_leq_behaviour :
    (∀ v : Value, subVals [] = .panic ∧ leqVals [] = .panic ∧
      subVals [v] = .panic ∧ leqVals [v] = .panic) ∧
    (∀ (x y : Int) (rest : List Value),
      (inI64 (x - y) = true →
        subVals (.Number x :: .Number y :: rest) = .ok (.Number (x - y))) ∧
      (inI64 (x - y) = false →
        subVals (.Number x :: .Number y :: rest) = .panic) ∧
      leqVals (.Number x :: .Number y :: rest) =
        .ok (if x ≤ y then .True else .False)) ∧
    (∀ (a b : Value) (rest : List Value) (v : Value),
      (subVals (a :: b :: rest) = .ok v ∨ leqVals (a :: b :: rest) = .ok v) →
      (∃ x : Int, a = .Number x) ∧ (∃ y : Int, b = .Number y)) ∧
    evalOut 50 "(- 5 3)" = .ok "2" ∧
    evalOut 50 "(- -9223372036854775808 1)" = .panic ∧
    evalOut 50 "(<= 2 3)" = .ok "true" ∧
    evalOut 50 "(<= 3 2)" = .ok "false" := by
  refine ⟨fun v => ⟨rfl, rfl, ?_, ?_⟩,
    fun x y rest => ⟨fun h => by simp [subVals, h], fun h => by simp [subVals, h], rfl⟩,
    ?_, rfl, rfl, rfl, rfl⟩
  · cases v <;> rfl
  · cases v <;> rfl
  · intro a b rest v h
    have : ∃ (x y : Int) (rest' : List Value),
        a :: b :: rest = .Number x :: .Number y :: rest' := by
      rcases h with h | h
      · exact subVals_ok_shape _ _ h
      · exact leqVals_ok_shape _ _ h
    rcases this with ⟨x, y, rest', hx⟩
    cases hx
    exact ⟨⟨x, rfl⟩, ⟨y, rfl⟩⟩

/-- Witness for c3_sub_leq_behaviour at concrete inputs discharging each
hypothesis. -/
theorem c3_sub_leq_behaviour_witness :
    subVals [.Number 5, .Number 2] = .ok (.Number (5 - 2)) ∧
    subVals [.Number i64Min, .Number 1] = .panic ∧
    (∃ x : Int, Value.Number 5 = .Number x) ∧ (∃ y : Int, Value.Number 2 = .Number y) :=
  ⟨(c3_sub_leq_behaviour.2.1 5 2 []).1 (by decide),
   (c3_sub_leq_behaviour.2.1 i64Min 1 []).2.1 (by decide),
   c3_sub_leq_behaviour.2.2.1 (.Number 5) (.Number 2) [] (.Number 3) (Or.inl rfl)⟩

/-- C9: `+`/`*` fold over all Number arguments with identities 0/1 (the
fold runs on i64, so a partial sum or product leaving the i64 range
panics, e.g. on `(+ 9223372036854775807 1)`), and a non-Number argument
aborts with a type error — except that formatting the type-error message
renders the offending value, which panics for a Quoted empty List (the
empty-list Display bug), e.g. on `(+ (quote))`. -/
theorem c9_add_mul_fold :
    (∀ xs : List Int,
      (∀ i : Nat, i ≤ xs.length → inI64 ((xs.take i).sum) = true) →
      addVals 0 (xs.map .Number) = .ok (.Number xs.sum)) ∧
    (∀ xs : List Int,
      (∀ i : Nat, i ≤ xs.length → inI64 ((xs.take i).prod) = true) →
      mulVals 1 (xs.map .Number) = .ok (.Number xs.prod)) ∧
    addVals 0 [] = .ok (.Number 0) ∧
    mulVals 1 [] = .ok (.Number 1) ∧
    evalOut 50 "(+ 1 2 3)" = .ok "6" ∧
    evalOut 50 "(+ )" = .ok "0" ∧
    evalOut 50 "(* )" = .ok "1" ∧
    addVals 0 [.Number i64Max, .Number 1] = .panic ∧
    mulVals 1 [.Number i64Max, .Number 2] = .panic ∧
    evalOut 50 "(+ 9223372036854775807 1)" = .panic ∧
    addVals 0 [.True] = .err "invalid type expected Number but got 'true'" ∧
    mulVals 1 [.Function (.prim .add)] =
      .err "invalid type expected Number but got '<fun>'" ∧
    addVals 0 [.Quoted (.list .nil)] = .panic ∧
    mulVals 1 [.Quoted (.list .nil)] = .panic ∧
    evalOut 50 "(+ (quote))" = .panic ∧
    evalOut 50 "(* 1 (quote) 2)" = .panic := by
  refine ⟨fun xs h => ?_, fun xs h => ?_,
    rfl, rfl, rfl, rfl, rfl, rfl, rfl, rfl, rfl, rfl, rfl, rfl, rfl, rfl⟩
  · have h0 : ∀ i : Nat, i ≤ xs.length → inI64 ((0 : Int) + (xs.take i).sum) = true := by
      intro i hi
      simpa using h i hi
    simpa using addVals_numbers xs 0 h0
  · have h0 : ∀ i : Nat, i ≤ xs.length → inI64 ((1 : Int) * (xs.take i).prod) = true := by
      intro i hi
      simpa using h i hi
    simpa using mulVals_numbers xs 1 h0

/-- Witness for c9_add_mul_fold at concrete argument lists. -/
theorem c9_add_mul_fold_witness :
    addVals 0 ([1, 2, 3].map .Number) = .ok (.Number ([1, 2, 3] : List Int).sum) ∧
    mulVals 1 ([2, 3].map .Number) = .ok (.Number ([2, 3] : List Int).prod) :=
  ⟨c9_add_mul_fold.1 [1, 2, 3] (by decide),
   c9_add_mul_fold.2.1 [2, 3] (by decide)⟩

theorem storeModify_get_self (σ : Store) (g : Frame → Frame) :
    ∀ i : Nat, i < σ.length → (storeModify σ i g).get? i = (σ.get? i).map g := by
  induction σ with
  | nil => intro i h; simp at h
  | cons fr σ ih =>
    intro i h
    match i with
    | 0 => rfl
    | j+1 => simpa [storeModify] using ih j (by simpa using h)

theorem getFromMap_err_msg (σ : Store) (s m : String) :
    ∀ (g i : Nat), getFromMap σ s i g = .err m → m = "unknown symbol '" ++ s ++ "'" := by
  intro g
  induction g with
  | zero => intro i h; cases h
  | succ g ih =>
    intro i h
    rw [getFromMap] at h
    split at h
    · cases h
    · split at h
      · cases h
      · split at h
        · exact ih _ h
        · cases h; rfl

theorem getFromMap_err_never_ok (σ : Store) (s m : String) :
    ∀ (g i : Nat), getFromMap σ s i g = .err m →
      ∀ (g' : Nat) (v : Value), getFromMap σ s i g' ≠ .ok v := by
  intro g
  induction g with
  | zero => intro i h; cases h
  | succ g ih =>
    intro i h g' v hok
    match g' with
    | 0 => cases hok
    | g'+1 =>
      rw [getFromMap] at h hok
      split at h
      · cases h
      · rename_i fr heq
        simp only [heq] at hok
        split at h
        · cases h
        · rename_i ha
          simp only [ha] at hok
          split at h
          · rename_i j ho
            simp only [ho] at hok
            exact ih _ h _ _ hok
          · rename_i ho
            simp only [ho] at hok
            cases hok

/-- C5: `Env::get` resolves the literal-keyword table first, then
integer-literal syntax, then the binding chain; keywords and integer
literals win even over an identically spelled binding stored with `set`,
and an unknown-symbol error arises only with all stages exhausted (no
amount of chain traversal would find a binding). -/
theorem c5_lookup_precedence :
    (∀ (σ : Store) (i : Nat) (s : String) (v k : Value),
      keywordVal s = some k →
      envGet σ i s = .ok k ∧ envGet (envSet σ i s v) i s = .ok k) ∧
    (∀ (σ : Store) (i : Nat) (s : String) (v : Value) (n : Int),
      keywordVal s = none → parseI64 s = some n →
      envGet σ i s = .ok (.Number n) ∧ envGet (envSet σ i s v) i s = .ok (.Number n)) ∧
    (∀ (σ : Store) (i : Nat) (s : String) (v : Value),
      keywordVal s = none → parseI64 s = none → i < σ.length →
      envGet (envSet σ i s v) i s = .ok v) ∧
    (∀ (σ : Store) (i : Nat) (s m : String),
      envGet σ i s = .err m →
      keywordVal s = none ∧ parseI64 s = none ∧
      m = "unknown symbol '" ++ s ++ "'" ∧
      ∀ (g : Nat) (v : Value), getFromMap σ s i g ≠ .ok v) ∧
    runSession 50 ["(def! if 99)", "if", "(def! 5 7)", "5", "(def! nil 1)", "nil"]
      defaultStore = [.ok "99", .ok "if", .ok "7", .ok "5", .ok "1", .ok "nil"] := by
  refine ⟨?_, ?_, ?_, ?_, rfl⟩
  · intro σ i s v k h
    constructor <;> simp [envGet, h]
  · intro σ i s v n hk hp
    constructor <;> simp [envGet, hk, hp]
  · intro σ i s v hk hp hi
    have hfr : ∃ fr, σ.get? i = some fr := by
      rcases hg : σ.get? i with _ | fr
      · rw [List.get?_eq_none] at hg; omega
      · exact ⟨fr, rfl⟩
    rcases hfr with ⟨fr, hfr⟩
    simp only [envGet, hk, hp]
    rw [getFromMap, envSet, storeModify_get_self σ _ i hi, hfr]
    simp [alGet]
  · intro σ i s m h
    simp only [envGet] at h
    rcases hk : keywordVal s with _ | k <;> rw [hk] at h
    · rcases hp : parseI64 s with _ | n <;> rw [hp] at h
      · exact ⟨rfl, rfl, getFromMap_err_msg σ s m _ i h,
          getFromMap_err_never_ok σ s m _ i h⟩
      · cases h
    · cases h

/-- Witness for c5_lookup_precedence at a concrete input. -/
theorem c5_lookup_precedence_witness :
    envGet defaultStore 0 "if" = .ok .If ∧
    envGet (envSet defaultStore 0 "if" .Nil) 0 "if" = .ok .If :=
  c5_lookup_precedence.1 defaultStore 0 "if" .Nil .If rfl

/-- C6: `let*` takes exactly 2 trailing forms, the first a List of even
length; it allocates exactly one new child frame of the current
environment, evaluates/binds the pairs sequentially in that frame (so
later bindings see earlier ones), and evaluates the body there; wrong
arity and odd-length binding lists error. -/
theorem c6_let_semantics :
    (∀ (fuel i : Nat) (σ : Store) (kvs : ExprList) (body : Expr),
      kvs.length % 2 = 0 →
      eval (fuel + 2) (.list (EL [.atom "let*", .list kvs, body])) i σ =
        bindS (evalLetPairs (eval (fuel + 1)) kvs σ.length (σ ++ [⟨[], some i⟩]))
          fun _ σ₁ => eval (fuel + 1) body σ.length σ₁) ∧
    evalOut 50 "(let* (a 2 b (+ a 1)) (+ a b))" = .ok "5" ∧
    evalOut 50 "(let* (a 2))" = .err "let* requires 2 arguments" ∧
    evalOut 50 "(let* (a 2) a b)" = .err "let* requires 2 arguments" ∧
    evalOut 50 "(let* (a 2 b) 1)" =
      .err "let* expected key-value pairs got '(a 2 b)'" := by
  refine ⟨?_, rfl, rfl, rfl, rfl⟩
  intro fuel i σ kvs body h
  have e1 : eval (fuel + 2) (.list (EL [.atom "let*", .list kvs, body])) i σ =
      if kvs.length % 2 = 0 then
        bindS (evalLetPairs (eval (fuel + 1)) kvs σ.length (σ ++ [⟨[], some i⟩]))
          fun _ σ₁ => eval (fuel + 1) body σ.length σ₁
      else letBindingsErr σ (.list kvs) := rfl
  rw [e1, if_pos h]

/-- Witness for c6_let_semantics at a concrete input. -/
theorem c6_let_semantics_witness :
    eval 2 (.list (EL [.atom "let*", .list .nil, .atom "x"])) 0 defaultStore =
      bindS (evalLetPairs (eval 1) .nil defaultStore.length (defaultStore ++ [⟨[], some 0⟩]))
        (fun _ σ₁ => eval 1 (.atom "x") defaultStore.length σ₁) :=
  c6_let_semantics.1 0 0 defaultStore .nil (.atom "x") rfl

/-- C7: `fn*` captures the environment current at creation; invoking the
closure with the wrong number of arguments fails with an arity error, and
otherwise allocates a fresh child frame of the captured environment,
binds the parameters there, and evaluates the body in it — a new frame on
every invocation, so sequential calls share no bindings. -/
theorem c7_closures :
    (∀ (fuel i : Nat) (σ : Store) (bs : ExprList) (body : Expr),
      eval (fuel + 2) (.list (EL [.atom "fn*", .list bs, body])) i σ =
        (σ, .ok (.Function (.closure i bs body)))) ∧
    (∀ (g : EvalFn) (j : Nat) (params : ExprList) (body : Expr)
        (args : List Value) (σ : Store),
      args.length ≠ params.length →
      applyFn g (.closure j params body) args σ =
        (σ, .err ("fn required " ++ toString params.length ++ " args but given "
            ++ toString args.length))) ∧
    (∀ (g : EvalFn) (j : Nat) (params : ExprList) (body : Expr)
        (args : List Value) (σ : Store),
      args.length = params.length →
      applyFn g (.closure j params body) args σ =
        bindS (bindParams params args σ.length (σ ++ [⟨[], some j⟩])) fun _ σ₁ =>
          g body σ.length σ₁) ∧
    evalOut 50 "((fn* (a b) (+ a b)) 2 3)" = .ok "5" ∧
    evalOut 50 "((fn* (a) a) 1 2)" = .err "fn required 1 args but given 2" ∧
    evalOut 50 "(do (def! f (let* (x 41) (fn* () x))) (f))" = .ok "41" ∧
    runSession 50 ["(def! f (fn* (a) a))", "(f 1)", "a", "(f 2)"] defaultStore =
      [.ok "<fun>", .ok "1", .err "unknown symbol 'a'", .ok "2"] := by
  refine ⟨fun _ _ _ _ _ => rfl, ?_, ?_, rfl, rfl, rfl, rfl⟩
  · intro g j params body args σ h
    have e : applyFn g (.closure j params body) args σ =
        if args.length ≠ params.length then
          (σ, .err ("fn required " ++ toString params.length ++ " args but given "
              ++ toString args.length))
        else
          bindS (bindParams params args σ.length (σ ++ [⟨[], some j⟩])) fun _ σ₁ =>
            g body σ.length σ₁ := rfl
    rw [e, if_pos h]
  · intro g j params body args σ h
    have e : applyFn g (.closure j params body) args σ =
        if args.length ≠ params.length then
          (σ, .err ("fn required " ++ toString params.length ++ " args but given "
              ++ toString args.length))
        else
          bindS (bindParams params args σ.length (σ ++ [⟨[], some j⟩])) fun _ σ₁ =>
            g body σ.length σ₁ := rfl
    rw [e, if_neg (not_not_intro h)]

/-- Witness for c7_closures at a concrete input. -/
theorem c7_closures_witness :
    applyFn (eval 1) (.closure 0 .nil (.atom "x")) [.Nil] defaultStore =
      (defaultStore, .err ("fn required " ++ toString (ExprList.nil.length)
          ++ " args but given " ++ toString [Value.Nil].length)) :=
  c7_closures.2.1 (eval 1) 0 .nil (.atom "x") [.Nil] defaultStore (by decide)

/-- C8: `if` with 2 or 3 trailing forms evaluates the condition; exactly
Nil and False select the else branch (Nil when absent), every other value
— including Number 0 — selects the then branch; fewer than 2 trailing
forms errors before evaluating anything, more than 3 errors after the
condition evaluates. -/
theorem c8_if_semantics :
    (∀ (fuel i : Nat) (σ : Store) (rest : ExprList),
      eval (fuel + 2) (.list (.cons (.atom "if") rest)) i σ =
        evalIf (eval (fuel + 1)) rest i σ) ∧
    (∀ (g : EvalFn) (c t : Expr) (i : Nat) (σ σ₁ : Store) (v : Value),
      g c i σ = (σ₁, .ok v) →
      ((v = .Nil ∨ v = .False) →
        evalIf g (EL [c, t]) i σ = (σ₁, .ok .Nil) ∧
        ∀ e : Expr, evalIf g (EL [c, t, e]) i σ = g e i σ₁) ∧
      ((v ≠ .Nil ∧ v ≠ .False) →
        evalIf g (EL [c, t]) i σ = g t i σ₁ ∧
        ∀ e : Expr, evalIf g (EL [c, t, e]) i σ = g t i σ₁)) ∧
    (∀ (g : EvalFn) (i : Nat) (σ : Store),
      evalIf g .nil i σ = (σ, .err "if* requires at least 2 arguments") ∧
      ∀ c : Expr, evalIf g (EL [c]) i σ =
        (σ, .err "if* requires at least 2 arguments")) ∧
    (∀ (g : EvalFn) (c r1 r2 r3 : Expr) (rs : ExprList) (i : Nat)
        (σ σ₁ : Store) (v : Value),
      g c i σ = (σ₁, .ok v) →
      evalIf g (.cons c (.cons r1 (.cons r2 (.cons r3 rs)))) i σ =
        (σ₁, .err "if* requires at most 3 arguments")) ∧
    evalOut 50 "(if nil 1 2)" = .ok "2" ∧
    evalOut 50 "(if 0 1 2)" = .ok "1" ∧
    evalOut 50 "(if false 1)" = .ok "nil" ∧
    evalOut 50 "(if 1 2 3 4)" = .err "if* requires at most 3 arguments" ∧
    evalOut 50 "(if 1)" = .err "if* requires at least 2 arguments" := by
  refine ⟨fun _ _ _ _ => rfl, ?_, fun g i σ => ⟨rfl, fun c => rfl⟩, ?_,
    rfl, rfl, rfl, rfl, rfl⟩
  · intro g c t i σ σ₁ v h
    have key2 : evalIf g (EL [c, t]) i σ =
        (fun w τ => (match w, (ExprList.cons t .nil : ExprList) with
          | .Nil, .cons _ .nil => (τ, Res.ok Value.Nil)
          | .False, .cons _ .nil => (τ, .ok .Nil)
          | .Nil, .cons _ (.cons e .nil) => g e i τ
          | .False, .cons _ (.cons e .nil) => g e i τ
          | _, .cons t' .nil => g t' i τ
          | _, .cons t' (.cons _ .nil) => g t' i τ
          | _, _ => (τ, .err "if* requires at most 3 arguments"))) v σ₁ := by
      show bindS (g c i σ) _ = _
      rw [h]; rfl
    constructor
    · rintro (rfl | rfl)
      · refine ⟨by rw [key2], fun e => ?_⟩
        show bindS (g c i σ) _ = _
        rw [h]; rfl
      · refine ⟨by rw [key2], fun e => ?_⟩
        show bindS (g c i σ) _ = _
        rw [h]; rfl
    · rintro ⟨hn, hf⟩
      constructor
      · rw [key2]
        cases v
        case Nil => exact absurd rfl hn
        case False => exact absurd rfl hf
        all_goals rfl
      · intro e
        have key3 : evalIf g (EL [c, t, e]) i σ =
            (fun w τ => (match w, (ExprList.cons t (.cons e .nil) : ExprList) with
              | .Nil, .cons _ .nil => (τ, Res.ok Value.Nil)
              | .False, .cons _ .nil => (τ, .ok .Nil)
              | .Nil, .cons _ (.cons e' .nil) => g e' i τ
              | .False, .cons _ (.cons e' .nil) => g e' i τ
              | _, .cons t' .nil => g t' i τ
              | _, .cons t' (.cons _ .nil) => g t' i τ
              | _, _ => (τ, .err "if* requires at most 3 arguments"))) v σ₁ := by
          show bindS (g c i σ) _ = _
          rw [h]; rfl
        rw [key3]
        cases v
        case Nil => exact absurd rfl hn
        case False => exact absurd rfl hf
        all_goals rfl
  · intro g c r1 r2 r3 rs i σ σ₁ v h
    show bindS (g c i σ) _ = _
    rw [h]
    cases v <;> rfl

/-- Witness for c8_if_semantics at a concrete input. -/
theorem c8_if_semantics_witness :
    evalIf (eval 5) (EL [.atom "nil", .atom "1"]) 0 defaultStore =
      (defaultStore, .ok .Nil) :=
  ((c8_if_semantics.2.1 (eval 5) (.atom "nil") (.atom "1") 0 defaultStore
      defaultStore .Nil rfl).1 (Or.inl rfl)).1

theorem atomChar_not_ws (c : Char) (h : isAtomChar c = true) :
    isRustWhitespace c = false := by
  simp [isAtomChar, isAsciiGraphic] at h
  simp [isRustWhitespace, wsCodes, List.contains]
  omega

theorem ws_not_atomChar (c : Char) (h : isRustWhitespace c = true) :
    isAtomChar c = false := by
  simp [isRustWhitespace, wsCodes, List.contains] at h
  simp [isAtomChar, isAsciiGraphic]
  intro _
  omega

theorem takeWhile_append_all (p : Char → Bool) :
    ∀ (xs ys : List Char), (∀ c ∈ xs, p c = true) →
      (∀ c, ys.head? = some c → p c = false) → (xs ++ ys).takeWhile p = xs := by
  intro xs
  induction xs with
  | nil =>
    intro ys _ hy
    cases ys with
    | nil => rfl
    | cons y ys => simp [List.takeWhile_cons, hy y rfl]
  | cons x xs ih =>
    intro ys hx hy
    simp only [List.cons_append, List.takeWhile_cons, hx x (by simp), if_true]
    rw [ih ys (fun c hc => hx c (by simp [hc])) hy]

theorem dropWhile_append_all (p : Char → Bool) :
    ∀ (xs ys : List Char), (∀ c ∈ xs, p c = true) →
      (∀ c, ys.head? = some c → p c = false) → (xs ++ ys).dropWhile p = ys := by
  intro xs
  induction xs with
  | nil =>
    intro ys _ hy
    cases ys with
    | nil => rfl
    | cons y ys => simp [List.dropWhile_cons, hy y rfl]
  | cons x xs ih =>
    intro ys hx hy
    simp only [List.cons_append, List.dropWhile_cons, hx x (by simp), if_true]
    exact ih ys (fun c hc => hx c (by simp [hc])) hy

theorem dropWhile_cons_false (p : Char → Bool) (c : Char) (cs : List Char)
    (h : p c = false) : (c :: cs).dropWhile p = c :: cs := by
  simp [List.dropWhile_cons, h]

theorem goodAtom_facts (cs : List Char) (h : goodAtom cs = true) :
    cs ≠ [] ∧ (∀ c ∈ cs, isAtomChar c = true) ∧
      ∀ d, cs.head? = some d → d ≠ '(' := by
  cases cs with
  | nil => cases h
  | cons c cs =>
    simp only [goodAtom, Bool.and_eq_true, bne_iff_ne, List.all_eq_true] at h
    refine ⟨by simp, ?_, ?_⟩
    · intro d hd
      rcases List.mem_cons.mp hd with rfl | hd
      · exact h.1.2
      · exact h.2 d hd
    · intro d hd
      cases hd
      exact h.1.1

theorem render_list_inv (e₀ : Expr) (es : ExprList) (s : String)
    (h : renderExpr (.list (.cons e₀ es)) = some s) :
    ∃ (s₀ t : String), renderExpr e₀ = some s₀ ∧ renderTail es = some t ∧
      s = "(" ++ s₀ ++ t := by
  rw [renderExpr] at h
  rcases h0 : renderExpr e₀ with _ | s₀ <;> rw [h0] at h
  · cases h
  · rcases h1 : renderTail es with _ | t <;> rw [h1] at h
    · cases h
    · cases h
      exact ⟨s₀, t, rfl, rfl, rfl⟩

theorem renderTail_cons_inv (e' : Expr) (es' : ExprList) (t : String)
    (h : renderTail (.cons e' es') = some t) :
    ∃ (s' t' : String), renderExpr e' = some s' ∧ renderTail es' = some t' ∧
      t = " " ++ s' ++ t' := by
  rw [renderTail] at h
  rcases h0 : renderExpr e' with _ | s' <;> rw [h0] at h
  · cases h
  · rcases h1 : renderTail es' with _ | t' <;> rw [h1] at h
    · cases h
    · cases h
      exact ⟨s', t', rfl, rfl, rfl⟩

theorem render_head (e : Expr) (s : String) (hw : wfExpr e = true)
    (hr : renderExpr e = some s) :
    ∃ (c : Char) (cs : List Char), s.data = c :: cs ∧
      isRustWhitespace c = false ∧ c ≠ ')' := by
  cases e with
  | atom a =>
    cases hr
    simp only [wfExpr] at hw
    obtain ⟨hne, hall, _⟩ := goodAtom_facts _ hw
    cases hd : s.data with
    | nil => exact absurd hd hne
    | cons c cs =>
      have hc : isAtomChar c = true := hall c (by rw [hd]; simp)
      refine ⟨c, cs, rfl, atomChar_not_ws c hc, ?_⟩
      simp only [isAtomChar, Bool.and_eq_true, bne_iff_ne] at hc
      exact hc.1
  | list es =>
    cases es with
    | nil => cases hr
    | cons e₀ es =>
      obtain ⟨s₀, t, _, _, rfl⟩ := render_list_inv e₀ es s hr
      refine ⟨'(', s₀.data ++ t.data, ?_, by decide, by decide⟩
      rw [String.data_append, String.data_append]
      rfl

theorem render_nonempty (e : Expr) (s : String) (hw : wfExpr e = true)
    (hr : renderExpr e = some s) : 1 ≤ s.data.length := by
  obtain ⟨c, cs, hd, -, -⟩ := render_head e s hw hr
  rw [hd]
  simp

theorem renderTail_rparen :
    ∀ (es : ExprList) (t : String), renderTail es = some t →
      ∃ mid : List Char, t.data = mid ++ [')']
  | .nil, t, h => by cases h; exact ⟨[], rfl⟩
  | .cons e' es', t, h => by
    obtain ⟨s', t', _, ht', rfl⟩ := renderTail_cons_inv e' es' t h
    obtain ⟨mid, hmid⟩ := renderTail_rparen es' t' ht'
    refine ⟨' ' :: (s'.data ++ mid), ?_⟩
    rw [String.data_append, String.data_append, hmid]
    simp

theorem renderTail_length :
    ∀ (es : ExprList) (t : String), wfItems es = true → renderTail es = some t →
      es.length < t.data.length
  | .nil, t, _, h => by cases h; simp [ExprList.length]
  | .cons e' es', t, hw, h => by
    simp only [wfItems, Bool.and_eq_true] at hw
    obtain ⟨s', t', hs', ht', rfl⟩ := renderTail_cons_inv e' es' t h
    have h1 := renderTail_length es' t' hw.2 ht'
    have h2 := render_nonempty e' s' hw.1 hs'
    rw [String.data_append, String.data_append]
    simp only [ExprList.length, List.length_append]
    have : (" ").data.length = 1 := rfl
    omega

theorem render_total_all : ∀ n : Nat,
    (∀ e : Expr, sizeOf e ≤ n → wfExpr e = true → ∃ s, renderExpr e = some s) ∧
    (∀ es : ExprList, sizeOf es ≤ n → wfItems es = true →
      ∃ t, renderTail es = some t) := by
  intro n
  induction n using Nat.strong_induction_on with
  | _ n ih =>
    constructor
    · intro e he hw
      match e with
      | .atom a => exact ⟨a, rfl⟩
      | .list .nil => simp [wfExpr] at hw
      | .list (.cons e₀ es) =>
        simp only [wfExpr, Bool.and_eq_true] at hw
        have hn : sizeOf e₀ + sizeOf es < n := by simp at he; omega
        obtain ⟨s₀, hs₀⟩ := (ih _ hn).1 e₀ (by omega) hw.1
        obtain ⟨t, ht⟩ := (ih _ hn).2 es (by omega) hw.2
        exact ⟨"(" ++ s₀ ++ t, by rw [renderExpr, hs₀, ht]; rfl⟩
    · intro es he hw
      match es with
      | .nil => exact ⟨")", rfl⟩
      | .cons e₀ es' =>
        simp only [wfItems, Bool.and_eq_true] at hw
        have hn : sizeOf e₀ + sizeOf es' < n := by simp at he; omega
        obtain ⟨s₀, hs₀⟩ := (ih _ hn).1 e₀ (by omega) hw.1
        obtain ⟨t, ht⟩ := (ih _ hn).2 es' (by omega) hw.2
        exact ⟨" " ++ s₀ ++ t, by rw [renderTail, hs₀, ht]; rfl⟩

theorem resSeq_ok {α β : Type} (a : α) (f : α → Res β) : resSeq (.ok a) f = f a := rfl

theorem resSeq_err {α β : Type} (m : String) (f : α → Res β) :
    resSeq (.err m) f = .err m := rfl

theorem parseExprAt_lparen (f : List Char → Res (Expr × List Char))
    (rest0 : List Char) :
    parseExprAt f ('(' :: rest0) =
      resSeq (resSeq (parseItems f (rest0.length + 1) rest0) closeParen)
        fun p => Res.ok (p.1, p.2.dropWhile isRustWhitespace) := rfl

theorem parseExprAt_not_lparen (f : List Char → Res (Expr × List Char))
    (c : Char) (cs : List Char) (hc : c ≠ '(') :
    parseExprAt f (c :: cs) =
      resSeq (parseAtomF (c :: cs))
        fun p => Res.ok (p.1, p.2.dropWhile isRustWhitespace) := by
  rw [parseExprAt]
  try congr 1
  intro rest0 heq
  injection heq with h1 _
  exact absurd h1 hc

theorem parseItems_rparen (f : List Char → Res (Expr × List Char))
    (g : Nat) (cs : List Char) :
    parseItems f (g+1) (')' :: cs) = .ok (.nil, ')' :: cs) := rfl

theorem parseItems_cons (f : List Char → Res (Expr × List Char))
    (g : Nat) (c : Char) (cs : List Char) (hc : c ≠ ')') :
    parseItems f (g+1) (c :: cs) =
      resSeq (f (c :: cs)) fun p =>
        resSeq (parseItems f g p.2) fun q => .ok (.cons p.1 q.1, q.2) := by
  rw [parseItems, if_neg hc]

theorem parseAtomF_full (xs ys : List Char) (hne : xs ≠ [])
    (hall : ∀ c ∈ xs, isAtomChar c = true)
    (hy : ∀ c, ys.head? = some c → isAtomChar c = false) :
    parseAtomF (xs ++ ys) = .ok (.atom (String.mk xs), ys) := by
  have h0 : xs.isEmpty = false := by
    cases xs with
    | nil => exact absurd rfl hne
    | cons x xs => rfl
  rw [parseAtomF]
  simp only [takeWhile_append_all _ xs ys hall hy,
    dropWhile_append_all _ xs ys hall hy, h0]
  rfl

theorem renderTail_head_delim (es : ExprList) (t : String)
    (h : renderTail es = some t) (rest : List Char) :
    wsDelim (t.data ++ rest) := by
  cases es with
  | nil =>
    cases h
    intro c hc
    cases hc
    decide
  | cons e' es' =>
    obtain ⟨s', t', _, _, rfl⟩ := renderTail_cons_inv e' es' t h
    intro c hc
    rw [String.data_append, String.data_append] at hc
    cases hc
    decide

theorem expr_sizeOf_pos (e : Expr) : 1 ≤ sizeOf e := by
  cases e <;> simp <;> omega

theorem exprList_sizeOf_pos (es : ExprList) : 1 ≤ sizeOf es := by
  cases es <;> simp <;> omega

theorem parseRT_all : ∀ n : Nat,
    (∀ e : Expr, sizeOf e ≤ n → PE e) ∧
    (∀ (e : Expr) (es : ExprList), sizeOf e + sizeOf es ≤ n → PI e es) := by
  intro n
  induction n using Nat.strong_induction_on with
  | _ n ih =>
    constructor
    · intro e he F s rest hw hr hF hrest
      cases e with
      | atom a =>
        rw [renderExpr] at hr
        have h1 := Option.some.inj hr
        subst h1
        simp only [wfExpr] at hw
        obtain ⟨hne, hall, hhead⟩ := goodAtom_facts _ hw
        rcases hd : a.data with _ | ⟨c₀, cs₀⟩
        · exact absurd hd hne
        rcases F with _ | F'
        · exact absurd hF (by omega)
        have hc₀ : isAtomChar c₀ = true := hall c₀ (by rw [hd]; exact List.mem_cons_self _ _)
        have hc₀lp : c₀ ≠ '(' := hhead c₀ (by rw [hd]; rfl)
        rw [parseExpression, List.cons_append,
          dropWhile_cons_false _ _ _ (atomChar_not_ws c₀ hc₀),
          parseExprAt_not_lparen _ _ _ hc₀lp,
          ← List.cons_append,
          parseAtomF_full (c₀ :: cs₀) rest (by simp) (hd ▸ hall) hrest,
          ← hd]
        rfl
      | list es =>
        cases es with
        | nil => simp [wfExpr] at hw
        | cons e₀ es =>
          obtain ⟨s₀, t, hs₀, ht, rfl⟩ := render_list_inv e₀ es s hr
          simp only [wfExpr, Bool.and_eq_true] at hw
          have hszt : sizeOf e₀ + sizeOf es < n := by simp at he; omega
          have hPI := (ih _ hszt).2 e₀ es le_rfl
          have hdata : ("(" ++ s₀ ++ t).data = '(' :: (s₀.data ++ t.data) := by
            rw [String.data_append, String.data_append]; rfl
          have hlen : ("(" ++ s₀ ++ t).data.length
              = 1 + (s₀.data.length + t.data.length) := by
            rw [hdata]; simp [List.length_append]; omega
          rcases F with _ | F'
          · exact absurd hF (by omega)
          rw [parseExpression, hdata, List.cons_append,
            dropWhile_cons_false _ _ _ (by decide : isRustWhitespace '(' = false),
            parseExprAt_lparen]
          rw [hPI F' (((s₀.data ++ t.data) ++ rest).length + 1) s₀ t rest hw.1 hw.2
            hs₀ ht (by rw [hlen] at hF; omega)
            (by have h1 := renderTail_length es t hw.2 ht
                simp only [List.length_append]
                omega)]
          rfl
    · intro e es hsz F g s t rest hwe hwi hs ht hF hg
      obtain ⟨c₀, cs₀, hd, hc₀ws, hc₀rp⟩ := render_head e s hwe hs
      rcases g with _ | g'
      · exact absurd hg (by omega)
      have hsze : sizeOf e < n := by
        have h1 := exprList_sizeOf_pos es
        omega
      have hPE := (ih _ hsze).1 e le_rfl
      have happ := hPE F s (t.data ++ rest) hwe hs
        (by simp only [List.length_append]; omega)
        (renderTail_head_delim es t ht rest)
      rw [hd, List.cons_append] at happ
      rw [hd, List.cons_append, List.cons_append, List.append_assoc]
      rw [parseItems_cons _ _ _ _ hc₀rp, happ]
      simp only [resSeq_ok]
      cases es with
      | nil =>
        rw [renderTail] at ht
        cases ht
        have hdr : ((")" : String).data ++ rest).dropWhile isRustWhitespace
            = ')' :: rest := by
          rw [show ((")" : String).data) = [')'] from rfl, List.singleton_append,
            dropWhile_cons_false _ _ _ (by decide)]
        rw [hdr]
        rcases g' with _ | g''
        · exact absurd hg (by simp only [ExprList.length]; omega)
        rw [parseItems_rparen]
        rfl
      | cons e' es' =>
        obtain ⟨s', t', hs', ht', rfl⟩ := renderTail_cons_inv e' es' t ht
        simp only [wfItems, Bool.and_eq_true] at hwi
        obtain ⟨c', cs', hd', hc'ws, _⟩ := render_head e' s' hwi.1 hs'
        have hlen2 : ((" " ++ s' ++ t').data).length
            = 1 + s'.data.length + t'.data.length := by
          rw [String.data_append, String.data_append]
          simp only [List.length_append]
          rw [show ((" " : String).data).length = 1 from rfl]
        have hdr : ((" " ++ s' ++ t').data ++ rest).dropWhile isRustWhitespace
            = s'.data ++ (t'.data ++ rest) := by
          rw [String.data_append, String.data_append,
            show ((" " : String).data) = [' '] from rfl,
            List.singleton_append, List.cons_append, List.cons_append]
          have hsp : isRustWhitespace ' ' = true := by decide
          simp only [List.dropWhile_cons, hsp, if_true]
          rw [List.append_assoc, hd', List.cons_append,
            dropWhile_cons_false _ _ _ hc'ws, ← List.cons_append, ← hd']
        rw [hdr, ← List.append_assoc]
        have hsz' : sizeOf e' + sizeOf es' < n := by
          have h1 := expr_sizeOf_pos e
          simp at hsz
          omega
        have hPI' := (ih _ hsz').2 e' es' le_rfl
        rw [hPI' F g' s' t' rest hwi.1 hwi.2 hs' ht'
          (by rw [hlen2] at hF; omega)
          (by simp only [ExprList.length] at hg; omega)]
        rfl

/-- C1 counterexample: the round trip fails on the claim's full domain.
Rendering the empty List panics (usize underflow in Display), so no text
is produced at all; and an Atom whose text contains whitespace or starts
with '(' renders fine but does not parse back. -/
theorem c1_counterexample :
    renderExpr (.list .nil) = none ∧
    (renderExpr (.atom "a b") = some "a b" ∧
      Expr.parse "a b" = .err "Unexpected EOF") ∧
    (renderExpr (.atom "(a") = some "(a" ∧
      Expr.parse "(a" = .err "parse_list expected ')'") :=
  ⟨rfl, ⟨rfl, rfl⟩, ⟨rfl, rfl⟩⟩

/-- C1 amended: for every Expression whose atoms are nonempty strings of
ascii-graphic characters other than ')' not starting with '(' (exactly the
atoms the parser itself can produce) and which contains no empty List,
rendering succeeds and parsing the rendered text yields a structurally
equal Expression. -/
theorem c1_roundtrip (e : Expr) (hw : wfExpr e = true) :
    ∃ s : String, renderExpr e = some s ∧ Expr.parse s = .ok e := by
  obtain ⟨s, hs⟩ := (render_total_all (sizeOf e)).1 e le_rfl hw
  refine ⟨s, hs, ?_⟩
  have hPE := (parseRT_all (sizeOf e)).1 e le_rfl
  have h := hPE (s.length + 1) s [] hw hs
    (by simp only [List.length_nil]
        have h0 : s.length = s.data.length := rfl
        omega)
    (fun c hc => by cases hc)
  rw [List.append_nil] at h
  rw [Expr.parse, h]
  rfl

/-- Witness for c1_roundtrip at a concrete input. -/
theorem c1_roundtrip_witness :
    wfExpr (.list (EL [.atom "ab", .list (EL [.atom "+", .atom "1"])])) = true ∧
    ∃ s : String,
      renderExpr (.list (EL [.atom "ab", .list (EL [.atom "+", .atom "1"])])) = some s ∧
      Expr.parse s = .ok (.list (EL [.atom "ab", .list (EL [.atom "+", .atom "1"])])) :=
  ⟨by decide, c1_roundtrip _ (by decide)⟩

theorem dropWhile_length_le (p : Char → Bool) (l : List Char) :
    (l.dropWhile p).length ≤ l.length := by
  have h := congrArg List.length (List.takeWhile_append_dropWhile p l)
  simp only [List.length_append] at h
  omega

theorem dropWhile_idem (p : Char → Bool) (l : List Char) :
    (l.dropWhile p).dropWhile p = l.dropWhile p := by
  induction l with
  | nil => rfl
  | cons x xs ih =>
    rw [List.dropWhile_cons]
    by_cases h : p x = true
    · simp [h, ih]
    · have h' : p x = false := by simpa using h
      simp [List.dropWhile_cons, h']

theorem ws_ne_rparen (c : Char) (h : isRustWhitespace c = true) : c ≠ ')' := by
  intro heq
  subst heq
  exact absurd h (by decide)

theorem atomChar_ne_rparen (c : Char) (h : isAtomChar c = true) : c ≠ ')' := by
  simp only [isAtomChar, Bool.and_eq_true, bne_iff_ne] at h
  exact h.1

theorem parseExpression_dropWs (F : Nat) (hF : 1 ≤ F) (cs : List Char) :
    parseExpression F cs = parseExpression F (cs.dropWhile isRustWhitespace) := by
  rcases F with _ | F₀
  · omega
  · rw [parseExpression, parseExpression, dropWhile_idem]

theorem specFormA_head (cs : List Char) (h : SpecFormA cs) :
    ∃ (c : Char) (cs' : List Char), cs = c :: cs' ∧
      isRustWhitespace c = false ∧ c ≠ ')' := by
  cases h with
  | atom c cs' _ hc _ =>
    exact ⟨c, cs', rfl, atomChar_not_ws c hc, atomChar_ne_rparen c hc⟩
  | list inner _ => exact ⟨'(', inner ++ [')'], rfl, by decide, by decide⟩

theorem wsDelim_of_all_ws : ∀ ws : List Char,
    (∀ c ∈ ws, isRustWhitespace c = true) → ∀ rest : List Char,
    wsDelim (ws ++ ')' :: rest)
  | [], _, _ => fun c hc => by cases hc; decide
  | w :: _, hws, _ => fun c hc => by
      cases hc
      exact ws_not_atomChar _ (hws w (by simp))

theorem specTailA_delim (tl : List Char) (h : SpecTailA tl) (rest : List Char) :
    wsDelim (tl ++ ')' :: rest) := by
  cases h with
  | done ws2 hws => exact wsDelim_of_all_ws tl hws rest
  | more w ws cs rest' hw hws hf ht =>
    intro c hc
    cases hc
    exact ws_not_atomChar _ hw

theorem grammar_sound_all : ∀ n : Nat,
    (∀ cs : List Char, cs.length ≤ n → SpecFormA cs →
      ∀ (F : Nat) (rest : List Char), cs.length + rest.length < F → wsDelim rest →
      ∃ e, parseExpression F (cs ++ rest) = .ok (e, rest.dropWhile isRustWhitespace)) ∧
    (∀ tl : List Char, tl.length ≤ n → SpecTailA tl →
      ∀ (F g : Nat) (rest : List Char), tl.length + 1 + rest.length < F → tl.length < g →
      ∃ es, parseItems (parseExpression F) g
        ((tl ++ ')' :: rest).dropWhile isRustWhitespace) = .ok (es, ')' :: rest)) ∧
    (∀ inner : List Char, inner.length ≤ n → SpecBodyA inner →
      ∀ (F g : Nat) (rest : List Char), inner.length + 1 + rest.length < F →
      inner.length < g →
      ∃ es, parseItems (parseExpression F) g (inner ++ ')' :: rest)
        = .ok (es, ')' :: rest)) := by
  intro n
  induction n using Nat.strong_induction_on with
  | _ n ih =>
    have HF : ∀ cs : List Char, cs.length ≤ n → SpecFormA cs →
        ∀ (F : Nat) (rest : List Char), cs.length + rest.length < F → wsDelim rest →
        ∃ e, parseExpression F (cs ++ rest)
          = .ok (e, rest.dropWhile isRustWhitespace) := by
      intro cs hn hd F rest hF hrest
      cases hd with
      | atom c cs' hlp hc hall =>
        rcases F with _ | F₁
        · exact absurd hF (by omega)
        refine ⟨.atom (String.mk (c :: cs')), ?_⟩
        rw [parseExpression, List.cons_append,
          dropWhile_cons_false _ _ _ (atomChar_not_ws c hc),
          parseExprAt_not_lparen _ _ _ hlp,
          ← List.cons_append,
          parseAtomF_full (c :: cs') rest (by simp)
            (by intro d hd'
                rcases List.mem_cons.mp hd' with rfl | hmem
                · exact hc
                · exact hall d hmem)
            hrest]
        rfl
      | list inner hb =>
        rcases F with _ | F₁
        · exact absurd hF (by omega)
        have hinner : inner.length < n := by
          simp [List.length_append] at hn
          omega
        obtain ⟨es, hes⟩ := (ih inner.length hinner).2.2 inner le_rfl hb F₁
          ((inner ++ ')' :: rest).length + 1) rest
          (by simp [List.length_append] at hF ⊢; omega)
          (by simp [List.length_append]; omega)
        refine ⟨.list es, ?_⟩
        have hin : ('(' :: inner ++ [')']) ++ rest = '(' :: (inner ++ ')' :: rest) := by
          simp
        rw [hin, parseExpression,
          dropWhile_cons_false _ _ _ (by decide : isRustWhitespace '(' = false),
          parseExprAt_lparen, hes]
        rfl
    have HT : ∀ tl : List Char, tl.length ≤ n → SpecTailA tl →
        ∀ (F g : Nat) (rest : List Char), tl.length + 1 + rest.length < F →
        tl.length < g →
        ∃ es, parseItems (parseExpression F) g
          ((tl ++ ')' :: rest).dropWhile isRustWhitespace) = .ok (es, ')' :: rest) := by
      intro tl hn hd F g rest hF hg
      cases hd with
      | done ws2 hws =>
        have hdr : (tl ++ ')' :: rest).dropWhile isRustWhitespace = ')' :: rest :=
          dropWhile_append_all _ tl (')' :: rest) hws
            (fun c hc => by cases hc; decide)
        rcases g with _ | g₁
        · exact absurd hg (by omega)
        rw [hdr]
        exact ⟨.nil, parseItems_rparen _ _ _⟩
      | more w ws2 cs₁ rest₂ hw hws hf ht =>
        obtain ⟨c₁, cs₁', hc₁eq, hc₁ws, hc₁rp⟩ := specFormA_head cs₁ hf
        have hdr : ((w :: ws2 ++ cs₁ ++ rest₂) ++ ')' :: rest).dropWhile
              isRustWhitespace = cs₁ ++ (rest₂ ++ ')' :: rest) := by
          have h1 : (w :: ws2 ++ cs₁ ++ rest₂) ++ ')' :: rest
              = (w :: ws2) ++ (cs₁ ++ (rest₂ ++ ')' :: rest)) := by simp
          rw [h1]
          exact dropWhile_append_all _ (w :: ws2) _
            (by intro c hc
                rcases List.mem_cons.mp hc with rfl | hmem
                · exact hw
                · exact hws c hmem)
            (by intro c hc
                rw [hc₁eq] at hc
                cases hc
                exact hc₁ws)
        rw [hdr]
        rcases g with _ | g₁
        · exact absurd hg (by omega)
        rw [hc₁eq, List.cons_append, parseItems_cons _ _ _ _ hc₁rp,
          ← List.cons_append, ← hc₁eq]
        have hlen : cs₁.length + (rest₂ ++ ')' :: rest).length < F := by
          simp [List.length_append] at hF ⊢
          omega
        have hcsn : cs₁.length ≤ n := by
          simp [List.length_append] at hn
          omega
        obtain ⟨e, he⟩ := HF cs₁ hcsn hf F (rest₂ ++ ')' :: rest) hlen
          (specTailA_delim rest₂ ht rest)
        rw [he]
        simp only [resSeq_ok]
        have hrn : rest₂.length < n := by
          simp [List.length_append] at hn
          omega
        obtain ⟨es, hes⟩ := (ih rest₂.length hrn).2.1 rest₂ le_rfl ht F g₁ rest
          (by simp [List.length_append] at hF ⊢; omega)
          (by simp [List.length_append] at hg; omega)
        rw [hes]
        exact ⟨.cons e es, rfl⟩
    have HB : ∀ inner : List Char, inner.length ≤ n → SpecBodyA inner →
        ∀ (F g : Nat) (rest : List Char), inner.length + 1 + rest.length < F →
        inner.length < g →
        ∃ es, parseItems (parseExpression F) g (inner ++ ')' :: rest)
          = .ok (es, ')' :: rest) := by
      intro inner hn hd F g rest hF hg
      cases hd with
      | empty =>
        rcases g with _ | g₁
        · exact absurd hg (by omega)
        exact ⟨.nil, by rw [List.nil_append]; exact parseItems_rparen _ _ _⟩
      | items ws2 cs₁ rest₂ hws hf ht =>
        obtain ⟨c₁, cs₁', hc₁eq, hc₁ws, hc₁rp⟩ := specFormA_head cs₁ hf
        have hc₁len : cs₁.length = cs₁'.length + 1 := by rw [hc₁eq]; rfl
        have hin : (ws2 ++ cs₁ ++ rest₂) ++ ')' :: rest
            = ws2 ++ (cs₁ ++ (rest₂ ++ ')' :: rest)) := by simp
        rw [hin]
        have hlen : cs₁.length + (rest₂ ++ ')' :: rest).length < F := by
          simp [List.length_append] at hF ⊢
          omega
        have hcsn : cs₁.length ≤ n := by
          simp [List.length_append] at hn
          omega
        obtain ⟨e, he⟩ := HF cs₁ hcsn hf F (rest₂ ++ ')' :: rest) hlen
          (specTailA_delim rest₂ ht rest)
        have hrtn : rest₂.length ≤ n := by
          simp [List.length_append] at hn
          omega
        rcases g with _ | g₁
        · exact absurd hg (by omega)
        obtain ⟨es, hes⟩ := HT rest₂ hrtn ht F g₁ rest
          (by simp [List.length_append] at hF ⊢; omega)
          (by simp [List.length_append] at hg; omega)
        obtain _ | ⟨w, ws₂'⟩ := ws2
        · rw [List.nil_append, hc₁eq, List.cons_append,
            parseItems_cons _ _ _ _ hc₁rp, ← List.cons_append, ← hc₁eq, he]
          simp only [resSeq_ok]
          rw [hes]
          exact ⟨.cons e es, rfl⟩
        · rw [List.cons_append, parseItems_cons _ _ _ _
            (ws_ne_rparen w (hws w (by simp)))]
          have hF1 : 1 ≤ F := by omega
          have he' : parseExpression F
              (w :: (ws₂' ++ (cs₁ ++ (rest₂ ++ ')' :: rest))))
              = .ok (e, (rest₂ ++ ')' :: rest).dropWhile isRustWhitespace) := by
            rw [parseExpression_dropWs F hF1]
            have hdw : (w :: (ws₂' ++ (cs₁ ++ (rest₂ ++ ')' :: rest)))).dropWhile
                isRustWhitespace = cs₁ ++ (rest₂ ++ ')' :: rest) := by
              rw [← List.cons_append]
              exact dropWhile_append_all _ (w :: ws₂') _ hws
                (by intro c hc
                    rw [hc₁eq] at hc
                    cases hc
                    exact hc₁ws)
            rw [hdw]
            exact he
          rw [he']
          simp only [resSeq_ok]
          rw [hes]
          exact ⟨.cons e es, rfl⟩
    exact ⟨HF, HT, HB⟩

theorem parseAtomF_cases (cs : List Char) :
    (∃ e rest, parseAtomF cs = .ok (e, rest) ∧ rest.length < cs.length) ∨
    parseAtomF cs = .err "empty atom" := by
  rcases h : cs.takeWhile isAtomChar with _ | ⟨x, xs⟩
  · right
    simp [parseAtomF, h]
  · left
    have hlen := congrArg List.length (List.takeWhile_append_dropWhile isAtomChar cs)
    rw [h] at hlen
    simp only [List.length_append, List.length_cons] at hlen
    refine ⟨.atom (String.mk (cs.takeWhile isAtomChar)),
      cs.dropWhile isAtomChar, ?_, by omega⟩
    rw [parseAtomF]
    simp only [h]
    rfl

theorem parseItems_cases (f : List Char → Res (Expr × List Char)) (N : Nat)
    (Hf : ∀ cs : List Char, cs.length ≤ N →
      (∃ e rest, f cs = .ok (e, rest) ∧ rest.length < cs.length) ∨
      (∃ m, f cs = .err m ∧
        (m = "empty atom" ∨ m = "parse_list expected ')'"))) :
    ∀ (g : Nat) (cs : List Char), cs.length < g → cs.length ≤ N →
      (∃ es rest, parseItems f g cs = .ok (es, rest) ∧ rest.length ≤ cs.length ∧
        (rest = [] ∨ ∃ rest', rest = ')' :: rest')) ∨
      (∃ m, parseItems f g cs = .err m ∧
        (m = "empty atom" ∨ m = "parse_list expected ')'")) := by
  intro g
  induction g with
  | zero => intro cs hg _; exact absurd hg (by omega)
  | succ g ihg =>
    intro cs hg hN
    match cs with
    | [] => exact Or.inl ⟨.nil, [], rfl, by simp, Or.inl rfl⟩
    | c :: cs' =>
      by_cases hc : c = ')'
      · subst hc
        exact Or.inl ⟨.nil, ')' :: cs', parseItems_rparen f g cs', by simp,
          Or.inr ⟨cs', rfl⟩⟩
      · rw [parseItems_cons f g c cs' hc]
        rcases Hf (c :: cs') hN with ⟨e, rest, hf, hlen⟩ | ⟨m, hf, hm⟩
        · rw [hf]
          simp only [resSeq_ok]
          simp only [List.length_cons] at hlen hg hN
          rcases ihg rest (by omega) (by omega) with
            ⟨es, rest₂, hp, hl2, hsh⟩ | ⟨m, hp, hm⟩
          · rw [hp]
            exact Or.inl ⟨.cons e es, rest₂, rfl, by simp; omega, hsh⟩
          · rw [hp]
            exact Or.inr ⟨m, rfl, hm⟩
        · rw [hf]
          exact Or.inr ⟨m, rfl, hm⟩

theorem parseExpression_cases :
    ∀ (F : Nat) (cs : List Char), cs.length < F →
      (∃ e rest, parseExpression F cs = .ok (e, rest) ∧ rest.length < cs.length) ∨
      (∃ m, parseExpression F cs = .err m ∧
        (m = "empty atom" ∨ m = "parse_list expected ')'")) := by
  intro F
  induction F with
  | zero => intro cs h; exact absurd h (by omega)
  | succ F ihF =>
    intro cs h
    rw [parseExpression]
    have hdle := dropWhile_length_le isRustWhitespace cs
    rcases hcs1 : cs.dropWhile isRustWhitespace with _ | ⟨c, cs'⟩
    · right
      exact ⟨"empty atom", rfl, Or.inl rfl⟩
    · rw [hcs1] at hdle
      simp only [List.length_cons] at hdle
      by_cases hc : c = '('
      · subst hc
        rw [parseExprAt_lparen]
        have Hf : ∀ cs'' : List Char, cs''.length ≤ cs'.length →
            (∃ e rest, parseExpression F cs'' = .ok (e, rest) ∧
              rest.length < cs''.length) ∨
            (∃ m, parseExpression F cs'' = .err m ∧
              (m = "empty atom" ∨ m = "parse_list expected ')'")) := by
          intro cs'' hlen
          exact ihF cs'' (by omega)
        rcases parseItems_cases (parseExpression F) cs'.length Hf
            (cs'.length + 1) cs' (by omega) le_rfl with
          ⟨es, rest, hp, hl, hsh⟩ | ⟨m, hp, hm⟩
        · rw [hp]
          simp only [resSeq_ok]
          rcases hsh with rfl | ⟨rest', rfl⟩
          · right
            exact ⟨"parse_list expected ')'", rfl, Or.inr rfl⟩
          · left
            refine ⟨.list es, rest'.dropWhile isRustWhitespace, rfl, ?_⟩
            have := dropWhile_length_le isRustWhitespace rest'
            simp only [List.length_cons] at hl
            omega
        · rw [hp]
          exact Or.inr ⟨m, rfl, hm⟩
      · rw [parseExprAt_not_lparen _ _ _ hc]
        rcases parseAtomF_cases (c :: cs') with ⟨e, rest, hp, hl⟩ | hp
        · rw [hp]
          simp only [resSeq_ok]
          left
          refine ⟨e, rest.dropWhile isRustWhitespace, rfl, ?_⟩
          have := dropWhile_length_le isRustWhitespace rest
          simp only [List.length_cons] at hl
          omega
        · rw [hp]
          exact Or.inr ⟨"empty atom", rfl, Or.inl rfl⟩

theorem wsDelim_of_ws : ∀ l : List Char,
    (∀ c ∈ l, isRustWhitespace c = true) → wsDelim l
  | [], _ => fun _ hc => by cases hc
  | w :: _, h => fun _ hc => by
      cases hc
      exact ws_not_atomChar _ (h w (by simp))

/-- C10 counterexample: "( )" conforms to the spec's grammar — a
parenthesized, whitespace-separated list of zero expressions — yet the
parser fails: `parse_list`'s loop treats the interior space as the start
of an element and `parse_atom` then reports an empty atom. -/
theorem c10_counterexample :
    SpecForm ("( )".data) ∧ Expr.parse "( )" = .err "empty atom" := by
  constructor
  · exact SpecForm.list [' ']
      (SpecBody.empty [' '] (by
        intro c hc
        rw [List.mem_singleton] at hc
        subst hc
        decide))
  · rfl

/-- C10 amended: parsing succeeds on every text conforming to the grammar
amended so that an empty list is written `()` with no interior whitespace
(the parser's list loop treats interior whitespace as the start of an
element and fails with an empty-atom error on "( )"); and every result of
`Expr::parse` is a success or one of exactly three errors: an empty atom,
an unmatched opening parenthesis, or trailing characters after the
top-level form. -/
theorem c10_parser_grammar :
    (∀ (s : String) (ws1 ws2 cs : List Char),
      (∀ c ∈ ws1, isRustWhitespace c = true) →
      (∀ c ∈ ws2, isRustWhitespace c = true) →
      SpecFormA cs → s.data = ws1 ++ cs ++ ws2 →
      ∃ e, Expr.parse s = .ok e) ∧
    (∀ s : String,
      (∃ e, Expr.parse s = .ok e) ∨
      Expr.parse s = .err "empty atom" ∨
      Expr.parse s = .err "parse_list expected ')'" ∨
      Expr.parse s = .err "Unexpected EOF") := by
  constructor
  · intro s ws1 ws2 cs hws1 hws2 hf hsd
    obtain ⟨c₀, cs₀, hc₀eq, hc₀ws, _⟩ := specFormA_head cs hf
    have hslen : s.length = ws1.length + cs.length + ws2.length := by
      have h0 : s.length = s.data.length := rfl
      rw [h0, hsd]
      simp only [List.length_append]
    obtain ⟨e, he⟩ := (grammar_sound_all cs.length).1 cs le_rfl hf
      (s.length + 1) ws2 (by omega) (wsDelim_of_ws ws2 hws2)
    have hw2nil : ws2.dropWhile isRustWhitespace = [] := by
      have h1 := dropWhile_append_all isRustWhitespace ws2 [] hws2
        (fun c hc => by cases hc)
      simpa using h1
    have hmain : parseExpression (s.length + 1) s.data = .ok (e, []) := by
      rw [hsd]
      have hassoc : ws1 ++ cs ++ ws2 = ws1 ++ (cs ++ ws2) := by simp
      rw [hassoc, parseExpression_dropWs (s.length + 1) (by omega) _]
      have hdw : (ws1 ++ (cs ++ ws2)).dropWhile isRustWhitespace = cs ++ ws2 :=
        dropWhile_append_all _ ws1 _ hws1
          (by intro c hc
              rw [hc₀eq] at hc
              cases hc
              exact hc₀ws)
      rw [hdw, he, hw2nil]
    exact ⟨e, by rw [Expr.parse, hmain]; rfl⟩
  · intro s
    rcases parseExpression_cases (s.length + 1) s.data
        (by have h0 : s.length = s.data.length := rfl; omega) with
      ⟨e, rest, hp, _⟩ | ⟨m, hp, hm⟩
    · cases rest with
      | nil => exact Or.inl ⟨e, by rw [Expr.parse, hp]; rfl⟩
      | cons r rs =>
        right; right; right
        rw [Expr.parse, hp]
        rfl
    · rcases hm with rfl | rfl
      · right; left
        rw [Expr.parse, hp]
      · right; right; left
        rw [Expr.parse, hp]

/-- Witness for c10_parser_grammar at a concrete input. -/
theorem c10_parser_grammar_witness : ∃ e, Expr.parse "(a b)" = .ok e :=
  c10_parser_grammar.1 "(a b)" [] [] ("(a b)".data)
    (fun _ hc => by cases hc) (fun _ hc => by cases hc)
    (SpecFormA.list ['a', ' ', 'b']
      (SpecBodyA.items [] ['a'] [' ', 'b'] (fun _ hc => by cases hc)
        (SpecFormA.atom 'a' [] (by decide) (by decide) (fun d hd => by cases hd))
        (SpecTailA.more ' ' [] ['b'] [] (by decide) (fun _ hc => by cases hc)
          (SpecFormA.atom 'b' [] (by decide) (by decide) (fun d hd => by cases hd))
          (SpecTailA.done [] (fun _ hc => by cases hc)))))
    rfl
